import Mathlib

/-!
Verification of the `ang` angle library (src/lib.rs).

The library defines `Angle<T>`, a two-variant sum type over radians and
degrees payloads, with unit-aware conversion, normalization, arithmetic,
comparison, minimal angular distance, inverse trigonometric constructors
and a circular mean.

Embedding choices:
* Scalar payloads (`T = f64`) are modelled as real numbers for the
  algebraic and range properties; the spec itself carves non-finite
  inputs out of those properties (§7: behavior for non-finite inputs
  inherits IEEE-754 propagation and is not covered by the range claims).
* NaN-sensitive operations (`asin`, `acos`, `mean_angle` on an empty
  sequence) are modelled over `Fp`, reals extended with a NaN element,
  with IEEE NaN-propagation semantics.  Division by zero with a nonzero
  numerator (an infinity in IEEE) is outside this carrier; none of the
  verified operations reaches that case (the only zero denominator that
  occurs is the `0 / 0` of the empty circular mean, which is NaN in
  IEEE as here).
* Rust's `%` on floats is the truncated remainder
  `x - y * trunc (x / y)`, modelled by `rustRem`.
-/

/-- Truncation toward zero, the rounding used by Rust float-to-int
conversion and by the float remainder `%`. -/
noncomputable def rustTrunc (x : ℝ) : ℤ :=
  if 0 ≤ x then ⌊x⌋ else ⌈x⌉

/-- Rust's `%` on floats (`Rem for f64`): the truncated remainder
`x - y * trunc (x / y)`, whose sign follows the dividend. -/
noncomputable def rustRem (x y : ℝ) : ℝ :=
  x - y * (rustTrunc (x / y) : ℝ)

/-- The `Angle<T>` enum of src/lib.rs lines 20-25: a value in radians
or a value in degrees. -/
inductive Angle (T : Type) where
  | Radians (v : T)
  | Degrees (v : T)

/-- The payload carried by either variant. -/
def Angle.payload : Angle T → T
  | .Radians v => v
  | .Degrees v => v

/-- Whether the value is the `Radians` variant. -/
def Angle.isRadians : Angle T → Bool
  | .Radians _ => true
  | .Degrees _ => false

/-- Whether the value is the `Degrees` variant. -/
def Angle.isDegrees : Angle T → Bool
  | .Radians _ => false
  | .Degrees _ => true

/-- `Angle::in_radians` (lib.rs lines 30-35): the payload unchanged for
`Radians`, else `v / 180 * PI` through the f64 anchor. -/
noncomputable def Angle.in_radians : Angle ℝ → ℝ
  | .Radians v => v
  | .Degrees v => v / 180 * Real.pi

/-- `Angle::in_degrees` (lib.rs lines 39-44): the payload unchanged for
`Degrees`, else `v / PI * 180` through the f64 anchor. -/
noncomputable def Angle.in_degrees : Angle ℝ → ℝ
  | .Radians v => v / Real.pi * 180
  | .Degrees v => v

/-- The full turn of the unit the variant carries: `2π` for radians,
`360` for degrees (the `upper` bound `Angle::normalized` selects). -/
noncomputable def Angle.period : Angle ℝ → ℝ
  | .Radians _ => 2 * Real.pi
  | .Degrees _ => 360

/-- The payload computation of `Angle::normalized` (lib.rs lines
93-103): keep `v` when `0 ≤ v < upper`, else take `v % upper` and add
`upper` once more when that remainder is negative. -/
noncomputable def normalize_val (v upper : ℝ) : ℝ :=
  if v < upper ∧ 0 ≤ v then v
  else if 0 ≤ rustRem v upper then rustRem v upper
  else rustRem v upper + upper

/-- `Angle::normalized` (lib.rs lines 87-109): normalize the payload
into `[0, upper)` for the variant's `upper`, keeping the variant. -/
noncomputable def Angle.normalized : Angle ℝ → Angle ℝ
  | .Radians v => .Radians (normalize_val v (2 * Real.pi))
  | .Degrees v => .Degrees (normalize_val v 360)

/-- `Angle::min_dist` (lib.rs lines 123-140): minimal unsigned distance,
returned in radians; a fast path when both operands are already in
`[0, 2π)`, a folding formula otherwise. -/
noncomputable def Angle.min_dist (a other : Angle ℝ) : Angle ℝ :=
  Angle.Radians
    (if 0 ≤ a.in_radians ∧ a.in_radians < 2 * Real.pi ∧
        0 ≤ other.in_radians ∧ other.in_radians < 2 * Real.pi
     then min (abs (a.in_radians - other.in_radians))
       (2 * Real.pi - abs (a.in_radians - other.in_radians))
     else Real.pi -
       abs (rustRem (abs (a.in_radians - other.in_radians)) (2 * Real.pi)
         - Real.pi))

/-- `Add for Angle` (math_additive!, lib.rs lines 300-310): degrees
payloads add directly when both operands are `Degrees`, every other
pairing adds in radians. -/
noncomputable def Angle.add (a rhs : Angle ℝ) : Angle ℝ :=
  match a, rhs with
  | .Degrees x, .Degrees y => .Degrees (x + y)
  | _, _ => .Radians (a.in_radians + rhs.in_radians)

/-- `Sub for Angle` (math_additive!, lib.rs lines 300-310). -/
noncomputable def Angle.sub (a rhs : Angle ℝ) : Angle ℝ :=
  match a, rhs with
  | .Degrees x, .Degrees y => .Degrees (x - y)
  | _, _ => .Radians (a.in_radians - rhs.in_radians)

/-- `AddAssign for Angle` (math_additive!, lib.rs lines 312-324): the
mutated receiver, as a value. -/
noncomputable def Angle.add_assign (self rhs : Angle ℝ) : Angle ℝ :=
  match self, rhs with
  | .Degrees a, .Degrees b => .Degrees (a + b)
  | _, _ => .Radians (self.in_radians + rhs.in_radians)

/-- `SubAssign for Angle` (math_additive!, lib.rs lines 312-324). -/
noncomputable def Angle.sub_assign (self rhs : Angle ℝ) : Angle ℝ :=
  match self, rhs with
  | .Degrees a, .Degrees b => .Degrees (a - b)
  | _, _ => .Radians (self.in_radians - rhs.in_radians)

/-- `Mul<T> for Angle<T>` (math_multiplicative!, lib.rs lines 333-342):
unit-preserving scaling. -/
noncomputable def Angle.mul (a : Angle ℝ) (rhs : ℝ) : Angle ℝ :=
  match a with
  | .Radians v => .Radians (v * rhs)
  | .Degrees v => .Degrees (v * rhs)

/-- `Div<T> for Angle<T>` (math_multiplicative!, lib.rs lines 333-342). -/
noncomputable def Angle.div (a : Angle ℝ) (rhs : ℝ) : Angle ℝ :=
  match a with
  | .Radians v => .Radians (v / rhs)
  | .Degrees v => .Degrees (v / rhs)

/-- `MulAssign<T> for Angle<T>` (lib.rs lines 344-352): the payload is
scaled in place, the variant untouched. -/
noncomputable def Angle.mul_assign (self : Angle ℝ) (rhs : ℝ) : Angle ℝ :=
  match self with
  | .Radians v => .Radians (v * rhs)
  | .Degrees v => .Degrees (v * rhs)

/-- `DivAssign<T> for Angle<T>` (lib.rs lines 344-352). -/
noncomputable def Angle.div_assign (self : Angle ℝ) (rhs : ℝ) : Angle ℝ :=
  match self with
  | .Radians v => .Radians (v / rhs)
  | .Degrees v => .Degrees (v / rhs)

/-- `PartialEq for Angle` (lib.rs lines 229-238): degrees payloads
compare directly when both operands are `Degrees`, every other pairing
compares in radians. -/
def Angle.eq (a b : Angle ℝ) : Prop :=
  match a, b with
  | .Degrees x, .Degrees y => x = y
  | _, _ => a.in_radians = b.in_radians

/-- `PartialOrd for Angle` (lib.rs lines 387-395): radians payloads
compare directly when both operands are `Radians`, every other pairing
compares after converting both to degrees.  Over the real payload model
the underlying comparison is total, so the option is always `some`. -/
noncomputable def Angle.partial_cmp (a b : Angle ℝ) : Option Ordering :=
  match a, b with
  | .Radians x, .Radians y => some (compare x y)
  | _, _ => some (compare a.in_degrees b.in_degrees)

/-- An f64 value that is either finite (a real) or NaN. -/
inductive Fp where
  | finite (x : ℝ)
  | nan

/-- `f64::is_nan`. -/
def Fp.isNan : Fp → Bool
  | .finite _ => false
  | .nan => true

/-- f64 addition restricted to the finite-or-NaN carrier: NaN
propagates. -/
noncomputable def Fp.add : Fp → Fp → Fp
  | .finite x, .finite y => .finite (x + y)
  | .finite _, .nan => .nan
  | .nan, _ => .nan

/-- f64 multiplication restricted to the finite-or-NaN carrier: NaN
propagates. -/
noncomputable def Fp.mul : Fp → Fp → Fp
  | .finite x, .finite y => .finite (x * y)
  | .finite _, .nan => .nan
  | .nan, _ => .nan

/-- f64 division restricted to the finite-or-NaN carrier: NaN
propagates and `0 / 0` is NaN.  A nonzero numerator over zero is an
infinity in IEEE, outside this carrier; no verified operation reaches
that case. -/
noncomputable def Fp.div : Fp → Fp → Fp
  | .finite x, .finite y => if y = 0 then .nan else .finite (x / y)
  | .finite _, .nan => .nan
  | .nan, _ => .nan

/-- f64 `%` (truncated remainder) on the carrier: NaN propagates and
`x % 0` is NaN. -/
noncomputable def Fp.rem : Fp → Fp → Fp
  | .finite x, .finite y => if y = 0 then .nan else .finite (rustRem x y)
  | .finite _, .nan => .nan
  | .nan, _ => .nan

/-- f64 `<`: any comparison against NaN is false. -/
def Fp.lt : Fp → Fp → Prop
  | .finite x, .finite y => x < y
  | .finite _, .nan => False
  | .nan, _ => False

/-- f64 `<=`: any comparison against NaN is false. -/
def Fp.le : Fp → Fp → Prop
  | .finite x, .finite y => x ≤ y
  | .finite _, .nan => False
  | .nan, _ => False

/-- f64 `sin`: NaN propagates. -/
noncomputable def Fp.sin : Fp → Fp
  | .finite x => .finite (Real.sin x)
  | .nan => .nan

/-- f64 `cos`: NaN propagates. -/
noncomputable def Fp.cos : Fp → Fp
  | .finite x => .finite (Real.cos x)
  | .nan => .nan

/-- f64 `asin`: NaN on NaN input or on an argument outside `[-1, 1]`,
the real arcsine otherwise. -/
noncomputable def Fp.asin : Fp → Fp
  | .finite x => if x < -1 ∨ 1 < x then .nan else .finite (Real.arcsin x)
  | .nan => .nan

/-- f64 `acos`: NaN on NaN input or on an argument outside `[-1, 1]`,
the real arccosine otherwise. -/
noncomputable def Fp.acos : Fp → Fp
  | .finite x => if x < -1 ∨ 1 < x then .nan else .finite (Real.arccos x)
  | .nan => .nan

/-- The four-quadrant arctangent on the reals. -/
noncomputable def atan2R (y x : ℝ) : ℝ :=
  if 0 < x then Real.arctan (y / x)
  else if x < 0 then
    (if 0 ≤ y then Real.arctan (y / x) + Real.pi
     else Real.arctan (y / x) - Real.pi)
  else if 0 < y then Real.pi / 2
  else if y < 0 then -(Real.pi / 2)
  else 0

/-- f64 `atan2`: NaN when either argument is NaN, the real
four-quadrant arctangent otherwise. -/
noncomputable def Fp.atan2 : Fp → Fp → Fp
  | .finite y, .finite x => .finite (atan2R y x)
  | .finite _, .nan => .nan
  | .nan, _ => .nan

open Classical

/-- `Angle::in_radians` over the finite-or-NaN carrier: the payload
unchanged for `Radians`, else `v / 180 * PI` with NaN propagation. -/
noncomputable def Angle.fp_in_radians : Angle Fp → Fp
  | .Radians v => v
  | .Degrees v => Fp.mul (Fp.div v (.finite 180)) (.finite Real.pi)

/-- `Angle::sin_cos` (lib.rs lines 209-211) over the carrier: the pair
`(sin, cos)` of the radian measure. -/
noncomputable def Angle.fp_sin_cos (a : Angle Fp) : Fp × Fp :=
  (Fp.sin a.fp_in_radians, Fp.cos a.fp_in_radians)

/-- The payload computation of `Angle::normalized` over the carrier:
every comparison against NaN is false, so a NaN payload flows through
the `%` branch and stays NaN. -/
noncomputable def fp_normalize_val (v upper : Fp) : Fp :=
  if Fp.lt v upper ∧ Fp.le (.finite 0) v then v
  else if Fp.le (.finite 0) (Fp.rem v upper) then Fp.rem v upper
  else Fp.add (Fp.rem v upper) upper

/-- `Angle::normalized` over the finite-or-NaN carrier. -/
noncomputable def Angle.fp_normalized : Angle Fp → Angle Fp
  | .Radians v => .Radians (fp_normalize_val v (.finite (2 * Real.pi)))
  | .Degrees v => .Degrees (fp_normalize_val v (.finite 360))

/-- `asin` (lib.rs lines 422-429): `None` when the scalar arcsine is
NaN, `Some(Radians(result))` otherwise. -/
noncomputable def asin (value : Fp) : Option (Angle Fp) :=
  let value := Fp.asin value
  if value.isNan then none else some (.Radians value)

/-- `acos` (lib.rs lines 435-442): `None` when the scalar arccosine is
NaN, `Some(Radians(result))` otherwise. -/
noncomputable def acos (value : Fp) : Option (Angle Fp) :=
  let value := Fp.acos value
  if value.isNan then none else some (.Radians value)

/-- The loop body of `mean_angle` (lib.rs lines 483-489): add the
cosine to `x`, the sine to `y`, and bump the count. -/
noncomputable def mean_step (acc : Fp × Fp × ℕ) (angle : Angle Fp) :
    Fp × Fp × ℕ :=
  let sc := angle.fp_sin_cos
  (Fp.add acc.1 sc.2, Fp.add acc.2.1 sc.1, acc.2.2 + 1)

/-- `mean_angle` (lib.rs lines 474-495): one pass accumulating the
Cartesian sums and the count, then `Radians((y/n).atan2(x/n))`
normalized. -/
noncomputable def mean_angle (angles : List (Angle Fp)) : Angle Fp :=
  let acc := angles.foldl mean_step (.finite 0, .finite 0, 0)
  let n : Fp := .finite ((acc.2.2 : ℕ) : ℝ)
  (Angle.Radians (Fp.atan2 (Fp.div acc.2.1 n) (Fp.div acc.1 n))).fp_normalized

/-- The sum of the cosines of a sequence of angles, as the spec states
the accumulation of `mean_angle`. -/
noncomputable def sum_cos (l : List (Angle Fp)) : Fp :=
  l.foldl (fun s a => Fp.add s (Fp.cos a.fp_in_radians)) (.finite 0)

/-- The sum of the sines of a sequence of angles, as the spec states
the accumulation of `mean_angle`. -/
noncomputable def sum_sin (l : List (Angle Fp)) : Fp :=
  l.foldl (fun s a => Fp.add s (Fp.sin a.fp_in_radians)) (.finite 0)

/-! ### Helper lemmas -/

lemma rustRem_bounds_nonneg {x y : ℝ} (hy : 0 < y) (hx : 0 ≤ x) :
    0 ≤ rustRem x y ∧ rustRem x y < y := by
  have hy0 : y ≠ 0 := ne_of_gt hy
  have hq : rustTrunc (x / y) = ⌊x / y⌋ := if_pos (div_nonneg hx hy.le)
  have hx2 : x / y * y = x := div_mul_cancel₀ x hy0
  have h1 : ((⌊x / y⌋ : ℝ)) ≤ x / y := Int.floor_le _
  have h2 : x / y < (⌊x / y⌋ : ℝ) + 1 := Int.lt_floor_add_one _
  have h1m : ((⌊x / y⌋ : ℝ)) * y ≤ x / y * y :=
    mul_le_mul_of_nonneg_right h1 hy.le
  have h2m : x / y * y < ((⌊x / y⌋ : ℝ) + 1) * y :=
    mul_lt_mul_of_pos_right h2 hy
  have hex : ((⌊x / y⌋ : ℝ) + 1) * y = (⌊x / y⌋ : ℝ) * y + y := by ring
  rw [rustRem, hq]
  constructor <;> nlinarith [h1m, h2m, hx2, hex]

lemma rustRem_bounds_neg {x y : ℝ} (hy : 0 < y) (hx : x < 0) :
    -y < rustRem x y ∧ rustRem x y ≤ 0 := by
  have hy0 : y ≠ 0 := ne_of_gt hy
  have hq : rustTrunc (x / y) = ⌈x / y⌉ :=
    if_neg (not_le.mpr (div_neg_of_neg_of_pos hx hy))
  have hx2 : x / y * y = x := div_mul_cancel₀ x hy0
  have h1 : x / y ≤ ((⌈x / y⌉ : ℝ)) := Int.le_ceil _
  have h2 : ((⌈x / y⌉ : ℝ)) < x / y + 1 := Int.ceil_lt_add_one _
  have h1m : x / y * y ≤ ((⌈x / y⌉ : ℝ)) * y :=
    mul_le_mul_of_nonneg_right h1 hy.le
  have h2m : ((⌈x / y⌉ : ℝ)) * y < (x / y + 1) * y :=
    mul_lt_mul_of_pos_right h2 hy
  have hex : (x / y + 1) * y = x / y * y + y := by ring
  rw [rustRem, hq]
  constructor <;> nlinarith [h1m, h2m, hx2, hex]

lemma normalize_val_of_mem {v upper : ℝ} (h : 0 ≤ v ∧ v < upper) :
    normalize_val v upper = v := by
  unfold normalize_val
  rw [if_pos ⟨h.2, h.1⟩]

lemma normalize_val_of_not_mem {v upper : ℝ} (h : ¬ (0 ≤ v ∧ v < upper)) :
    normalize_val v upper =
      if 0 ≤ rustRem v upper then rustRem v upper
      else rustRem v upper + upper := by
  unfold normalize_val
  rw [if_neg fun hc => h ⟨hc.2, hc.1⟩]

lemma normalize_val_mem {v upper : ℝ} (hu : 0 < upper) :
    0 ≤ normalize_val v upper ∧ normalize_val v upper < upper := by
  unfold normalize_val
  by_cases h : v < upper ∧ 0 ≤ v
  · rw [if_pos h]
    exact ⟨h.2, h.1⟩
  · rw [if_neg h]
    by_cases hv : 0 ≤ v
    · obtain ⟨h0, h1⟩ := rustRem_bounds_nonneg hu hv
      rw [if_pos h0]
      exact ⟨h0, h1⟩
    · obtain ⟨h0, h1⟩ := rustRem_bounds_neg hu (not_le.mp hv)
      by_cases hr : 0 ≤ rustRem v upper
      · rw [if_pos hr]
        exact ⟨hr, lt_of_le_of_lt h1 hu⟩
      · rw [if_neg hr]
        push_neg at hr
        exact ⟨by linarith, by linarith⟩

lemma fp_normalized_nan :
    Angle.fp_normalized (Angle.Radians Fp.nan) = Angle.Radians Fp.nan := by
  show Angle.Radians (fp_normalize_val Fp.nan (.finite (2 * Real.pi))) = _
  unfold fp_normalize_val
  rw [if_neg, if_neg] <;> simp [Fp.lt, Fp.le, Fp.rem, Fp.add]

lemma mean_fold (l : List (Angle Fp)) : ∀ acc : Fp × Fp × ℕ,
    List.foldl mean_step acc l =
      (List.foldl (fun s a => Fp.add s (Fp.cos a.fp_in_radians)) acc.1 l,
       List.foldl (fun s a => Fp.add s (Fp.sin a.fp_in_radians)) acc.2.1 l,
       acc.2.2 + l.length) := by
  induction l with
  | nil => intro acc; simp
  | cons a l ih =>
      intro acc
      simp only [List.foldl_cons, List.length_cons]
      rw [ih (mean_step acc a)]
      simp only [mean_step, Angle.fp_sin_cos]
      refine congrArg _ (congrArg _ ?_)
      omega

/-! ### The claims -/

/-- C1: `normalized` keeps the variant, lands the payload in
`[0, period)` (`[0, 2π)` for radians, `[0, 360)` for degrees), returns
the value unchanged when the payload already lies in that half-open
interval, and otherwise takes the truncated remainder by the period,
adding the period once more when that remainder is negative. -/
theorem normalized_spec (a : Angle ℝ) :
    a.normalized.isRadians = a.isRadians ∧
    a.normalized.isDegrees = a.isDegrees ∧
    (0 ≤ a.normalized.payload ∧ a.normalized.payload < a.period) ∧
    ((0 ≤ a.payload ∧ a.payload < a.period) → a.normalized = a) ∧
    (¬ (0 ≤ a.payload ∧ a.payload < a.period) →
      a.normalized.payload =
        if 0 ≤ rustRem a.payload a.period then rustRem a.payload a.period
        else rustRem a.payload a.period + a.period) := by
  have h2pi : (0 : ℝ) < 2 * Real.pi := by positivity
  have h360 : (0 : ℝ) < 360 := by norm_num
  cases a with
  | Radians v =>
      refine ⟨rfl, rfl, normalize_val_mem h2pi, fun h => ?_, fun h => ?_⟩
      · have h2 : 0 ≤ v ∧ v < 2 * Real.pi := h
        show Angle.Radians (normalize_val v (2 * Real.pi)) = Angle.Radians v
        rw [normalize_val_of_mem h2]
      · have h2 : ¬ (0 ≤ v ∧ v < 2 * Real.pi) := h
        show normalize_val v (2 * Real.pi) = _
        exact normalize_val_of_not_mem h2
  | Degrees v =>
      refine ⟨rfl, rfl, normalize_val_mem h360, fun h => ?_, fun h => ?_⟩
      · have h2 : 0 ≤ v ∧ v < 360 := h
        show Angle.Degrees (normalize_val v 360) = Angle.Degrees v
        rw [normalize_val_of_mem h2]
      · have h2 : ¬ (0 ≤ v ∧ v < 360) := h
        show normalize_val v 360 = _
        exact normalize_val_of_not_mem h2

/-- C2: addition and subtraction keep degrees when both operands are
the `Degrees` variant, and fall back to radians in every other case. -/
theorem add_sub_unit_selection (a b : Angle ℝ) :
    ((a.isDegrees = true ∧ b.isDegrees = true) →
      a.add b = Angle.Degrees (a.payload + b.payload) ∧
      a.sub b = Angle.Degrees (a.payload - b.payload)) ∧
    (¬ (a.isDegrees = true ∧ b.isDegrees = true) →
      a.add b = Angle.Radians (a.in_radians + b.in_radians) ∧
      a.sub b = Angle.Radians (a.in_radians - b.in_radians)) := by
  cases a <;> cases b <;>
    simp [Angle.add, Angle.sub, Angle.isDegrees, Angle.payload]

/-- C3: `min_dist` returns a `Radians` value in `[0, π]`; on the fast
path (both radian measures in `[0, 2π)`) it is
`min |a-b| (2π - |a-b|)`, otherwise `π - |((|a-b| % 2π) - π)|`. -/
theorem min_dist_spec (a b : Angle ℝ) :
    ∃ v, a.min_dist b = Angle.Radians v ∧ 0 ≤ v ∧ v ≤ Real.pi ∧
      ((0 ≤ a.in_radians ∧ a.in_radians < 2 * Real.pi ∧
        0 ≤ b.in_radians ∧ b.in_radians < 2 * Real.pi) →
        v = min (abs (a.in_radians - b.in_radians))
              (2 * Real.pi - abs (a.in_radians - b.in_radians))) ∧
      (¬ (0 ≤ a.in_radians ∧ a.in_radians < 2 * Real.pi ∧
          0 ≤ b.in_radians ∧ b.in_radians < 2 * Real.pi) →
        v = Real.pi -
          abs (rustRem (abs (a.in_radians - b.in_radians)) (2 * Real.pi)
            - Real.pi)) := by
  have hpi : (0 : ℝ) < Real.pi := Real.pi_pos
  have h2pi : (0 : ℝ) < 2 * Real.pi := by positivity
  have hd0 : 0 ≤ abs (a.in_radians - b.in_radians) := abs_nonneg _
  by_cases h : 0 ≤ a.in_radians ∧ a.in_radians < 2 * Real.pi ∧
      0 ≤ b.in_radians ∧ b.in_radians < 2 * Real.pi
  · obtain ⟨h1, h2, h3, h4⟩ := h
    have hdlt : abs (a.in_radians - b.in_radians) < 2 * Real.pi :=
      abs_sub_lt_iff.mpr ⟨by linarith, by linarith⟩
    refine ⟨min (abs (a.in_radians - b.in_radians))
        (2 * Real.pi - abs (a.in_radians - b.in_radians)), ?_, ?_, ?_,
        fun _ => rfl, fun hc => absurd ⟨h1, h2, h3, h4⟩ hc⟩
    · unfold Angle.min_dist
      rw [if_pos (⟨h1, h2, h3, h4⟩ : 0 ≤ a.in_radians ∧
        a.in_radians < 2 * Real.pi ∧ 0 ≤ b.in_radians ∧
        b.in_radians < 2 * Real.pi)]
    · exact le_min hd0 (by linarith)
    · rcases le_total (abs (a.in_radians - b.in_radians)) Real.pi with h5 | h5
      · exact le_trans (min_le_left _ _) h5
      · exact le_trans (min_le_right _ _) (by linarith)
  · obtain ⟨hr0, hr1⟩ := rustRem_bounds_nonneg h2pi hd0
    have habs : abs (rustRem (abs (a.in_radians - b.in_radians))
        (2 * Real.pi) - Real.pi) ≤ Real.pi :=
      abs_le.mpr ⟨by linarith, by linarith⟩
    have habs0 : 0 ≤ abs (rustRem (abs (a.in_radians - b.in_radians))
        (2 * Real.pi) - Real.pi) := abs_nonneg _
    refine ⟨Real.pi - abs (rustRem (abs (a.in_radians - b.in_radians))
        (2 * Real.pi) - Real.pi), ?_, by linarith, by linarith,
        fun hc => absurd hc h, fun _ => rfl⟩
    unfold Angle.min_dist
    rw [if_neg h]

/-- C4: converting an angle to degrees, wrapping it as `Degrees` and
converting back to radians reproduces `in_radians` exactly in the real
payload model, so in particular within the stated `1e-10` tolerance. -/
theorem degrees_radians_round_trip (a : Angle ℝ) :
    (Angle.Degrees a.in_degrees).in_radians = a.in_radians ∧
    abs ((Angle.Degrees a.in_degrees).in_radians - a.in_radians)
      ≤ 1e-10 := by
  have hpi : Real.pi ≠ 0 := Real.pi_ne_zero
  have key : (Angle.Degrees a.in_degrees).in_radians = a.in_radians := by
    cases a with
    | Radians v =>
        show v / Real.pi * 180 / 180 * Real.pi = v
        field_simp
        ring
    | Degrees v => rfl
  refine ⟨key, ?_⟩
  rw [key, sub_self, abs_zero]
  norm_num

/-- C5: on two `Degrees` values, equality is exactly equality of the
degree payloads and ordering is exactly the comparison of the degree
payloads; the ordering path through `in_degrees` is the identity on the
`Degrees` variant, so no conversion error enters. -/
theorem degrees_eq_ord_exact (x y : ℝ) :
    (Angle.eq (Angle.Degrees x) (Angle.Degrees y) ↔ x = y) ∧
    Angle.partial_cmp (Angle.Degrees x) (Angle.Degrees y)
      = some (compare x y) ∧
    (Angle.Degrees x : Angle ℝ).in_degrees = x := by
  exact ⟨Iff.rfl, rfl, rfl⟩

/-- C6: scalar multiplication keeps the variant and commutes exactly
with conversion to radians in the real payload model. -/
theorem mul_in_radians_exact (a : Angle ℝ) (x : ℝ) :
    (a.mul x).in_radians = a.in_radians * x ∧
    (a.mul x).isRadians = a.isRadians := by
  cases a with
  | Radians v => exact ⟨rfl, rfl⟩
  | Degrees v =>
      refine ⟨?_, rfl⟩
      show v * x / 180 * Real.pi = v / 180 * Real.pi * x
      ring

/-- C7: each in-place operator leaves the receiver equal, variant and
payload, to the corresponding value-returning operator applied to the
original operands. -/
theorem assign_forms_agree (a b : Angle ℝ) (x : ℝ) :
    a.add_assign b = a.add b ∧ a.sub_assign b = a.sub b ∧
    a.mul_assign x = a.mul x ∧ a.div_assign x = a.div x := by
  cases a <;> cases b <;> exact ⟨rfl, rfl, rfl, rfl⟩

/-- C8: `asin` and `acos` return `none` exactly when the scalar inverse
function yields NaN (in particular outside `[-1, 1]`), and otherwise
`some (Radians result)` with a non-NaN payload. -/
theorem asin_acos_nan_option :
    (∀ v : Fp,
      (asin v = none ↔ (Fp.asin v).isNan = true) ∧
      (∀ a, asin v = some a →
        a = Angle.Radians (Fp.asin v) ∧ (Fp.asin v).isNan = false) ∧
      (acos v = none ↔ (Fp.acos v).isNan = true) ∧
      (∀ a, acos v = some a →
        a = Angle.Radians (Fp.acos v) ∧ (Fp.acos v).isNan = false)) ∧
    (∀ x : ℝ, (x < -1 ∨ 1 < x) →
      asin (Fp.finite x) = none ∧ acos (Fp.finite x) = none) := by
  have hs : ∀ v : Fp,
      (asin v = none ↔ (Fp.asin v).isNan = true) ∧
      (∀ a, asin v = some a →
        a = Angle.Radians (Fp.asin v) ∧ (Fp.asin v).isNan = false) := by
    intro v
    cases hb : (Fp.asin v).isNan with
    | false =>
        refine ⟨by simp [asin, hb], fun a ha => ?_⟩
        simp only [asin, hb] at ha
        simp at ha
        exact ⟨ha.symm, rfl⟩
    | true => exact ⟨by simp [asin, hb], fun a ha => by simp [asin, hb] at ha⟩
  have hc : ∀ v : Fp,
      (acos v = none ↔ (Fp.acos v).isNan = true) ∧
      (∀ a, acos v = some a →
        a = Angle.Radians (Fp.acos v) ∧ (Fp.acos v).isNan = false) := by
    intro v
    cases hb : (Fp.acos v).isNan with
    | false =>
        refine ⟨by simp [acos, hb], fun a ha => ?_⟩
        simp only [acos, hb] at ha
        simp at ha
        exact ⟨ha.symm, rfl⟩
    | true => exact ⟨by simp [acos, hb], fun a ha => by simp [acos, hb] at ha⟩
  refine ⟨fun v => ⟨(hs v).1, (hs v).2, (hc v).1, (hc v).2⟩, fun x hx => ?_⟩
  constructor
  · exact (hs (Fp.finite x)).1.mpr (by simp [Fp.asin, hx, Fp.isNan])
  · exact (hc (Fp.finite x)).1.mpr (by simp [Fp.acos, hx, Fp.isNan])

/-- C9: `mean_angle` is the one-pass accumulation of the sums of
cosines and sines and the count, returning
`Radians(atan2 (Σsin / n) (Σcos / n))` normalized. -/
theorem mean_angle_spec (l : List (Angle Fp)) (hl : l ≠ []) :
    mean_angle l =
      (Angle.Radians (Fp.atan2
        (Fp.div (sum_sin l) (Fp.finite ((l.length : ℕ) : ℝ)))
        (Fp.div (sum_cos l) (Fp.finite ((l.length : ℕ) : ℝ))))).fp_normalized := by
  simp only [mean_angle]
  rw [mean_fold l (.finite 0, .finite 0, 0)]
  simp only [sum_cos, sum_sin, Nat.zero_add]

/-- C9 witness: the specification evaluated on the one-element sequence
holding the zero radian angle. -/
theorem mean_angle_spec_witness :
    mean_angle [Angle.Radians (Fp.finite 0)] =
      (Angle.Radians (Fp.atan2
        (Fp.div (sum_sin [Angle.Radians (Fp.finite 0)])
          (Fp.finite ((1 : ℕ) : ℝ)))
        (Fp.div (sum_cos [Angle.Radians (Fp.finite 0)])
          (Fp.finite ((1 : ℕ) : ℝ))))).fp_normalized :=
  mean_angle_spec [Angle.Radians (Fp.finite 0)] (by simp)

/-- C10: on the empty sequence `mean_angle` is total: the zero count
casts, the `0 / 0` divisions are NaN, and the result is a
`Radians`-variant NaN, which `normalized` leaves unchanged. -/
theorem mean_angle_empty_nan :
    Fp.div (Fp.finite 0) (Fp.finite 0) = Fp.nan ∧
    Angle.fp_normalized (Angle.Radians Fp.nan) = Angle.Radians Fp.nan ∧
    mean_angle ([] : List (Angle Fp)) = Angle.Radians Fp.nan := by
  refine ⟨by simp [Fp.div], fp_normalized_nan, ?_⟩
  simp only [mean_angle, List.foldl_nil, Nat.cast_zero]
  rw [show Fp.div (Fp.finite 0) (Fp.finite 0) = Fp.nan by simp [Fp.div]]
  rw [show Fp.atan2 Fp.nan Fp.nan = Fp.nan from rfl]
  exact fp_normalized_nan
